import Mathlib

set_option linter.unusedSectionVars false

/-
  Shallow embedding of `rust-hashcons` (src/lib.rs).

  The Rust library manipulates raw pointers: each hash-consed value lives in a
  heap-allocated `HashConsedBox { value, conser, refs }`, the conser is a
  heap-allocated `HashConserBox { map, refs }`, and both are reached through
  raw pointers.  We embed one conser together with all its boxes as an explicit
  configuration `Conf`:

  * `heap`   — the live `HashConsedBox` allocations, as an association list from
               pointer identity (a `Nat`, allocated in increasing order by
               `next`) to the box contents (`Cell`: value and `refs` counter).
               The box's `conser` back-reference field is implicit: every live
               box accounts for exactly one unit of `conserRefs` (it holds a
               clone of the conser), and dropping the box runs the conser drop
               glue (`conserDrop`).
  * `map`    — the conser's `HashMap<UnsafeRef<T>, UnsafeRef<T>>`, as a list of
               (key pointer, value pointer) entries; lookup and removal compare
               keys by the *structural* value stored at the key pointer, exactly
               like the `PartialEq`/`Hash` impls of `UnsafeRef`.
  * `conserRefs`, `conserAlive` — the `HashConserBox.refs` counter and whether
               the conser box has been freed.
  * `ownerLive` — whether the caller still holds its original `HashConser`
               (created by `HashConser::new` with `refs = 1`).
  * `handles` — the outstanding `HashConsed` handles (each is just a pointer).
  * `panicked` — set when the `assert!` in `Drop for HashConser` fails.

  `HashConsed<T>` is a newtype over the raw pointer, so a handle is modelled as
  the bare pointer `Nat`; its `PartialEq`/`Hash` impls are `idEq`/`idHash`.
-/

namespace HashCons

/-- Models `HashConsedBox<T>` (src/lib.rs 15-21) minus the `conser` field,
which is tracked through `Conf.conserRefs`: the structural `value` and the
live-handle counter `refs`. -/
structure Cell (V : Type) where
  value : V
  refs : Nat

/-- A configuration: one conser plus every allocation it interacts with. -/
structure Conf (V : Type) where
  heap : List (Nat × Cell V)
  next : Nat
  map : List (Nat × Nat)
  conserRefs : Nat
  conserAlive : Bool
  ownerLive : Bool
  handles : List Nat
  panicked : Bool

variable {V : Type} [DecidableEq V]

/-- Pointer dereference: look a box up in the heap. -/
def heapGet : List (Nat × Cell V) → Nat → Option (Cell V)
  | [], _ => none
  | (q, a) :: t, p => if q = p then some a else heapGet t p

/-- In-place update of the box stored at a pointer. -/
def heapSet : List (Nat × Cell V) → Nat → Cell V → List (Nat × Cell V)
  | [], _, _ => []
  | (q, a) :: t, p, b => if q = p then (p, b) :: t else (q, a) :: heapSet t p b

/-- Deallocation: drop a pointer's entry from the heap. -/
def heapRemove : List (Nat × Cell V) → Nat → List (Nat × Cell V)
  | [], _ => []
  | (q, a) :: t, p => if q = p then t else (q, a) :: heapRemove t p

/-- The structural value stored behind a pointer (`UnsafeRef::value`). -/
def valueAtH (h : List (Nat × Cell V)) (p : Nat) : Option V :=
  (heapGet h p).map Cell.value

/-- The structural value a configuration stores behind a pointer. -/
def valueAt (c : Conf V) (p : Nat) : Option V :=
  valueAtH c.heap p

/-- The live-handle count of the box behind a pointer (`UnsafeRef::refs`). -/
def refsAt (c : Conf V) (p : Nat) : Option Nat :=
  (heapGet c.heap p).map Cell.refs

/-- Models `UnsafeRef::inc_refs` (src/lib.rs 74-77): `(*self.ptr).refs += 1`. -/
def inc_refs (c : Conf V) (p : Nat) : Conf V :=
  match heapGet c.heap p with
  | some a => { c with heap := heapSet c.heap p { a with refs := a.refs + 1 } }
  | none => c

/-- Models `UnsafeRef::dec_refs` (src/lib.rs 79-82).  The source of this
revision performs `(*self.ptr).refs += 1` — it adds one instead of
subtracting one. -/
def dec_refs (c : Conf V) (p : Nat) : Conf V :=
  match heapGet c.heap p with
  | some a => { c with heap := heapSet c.heap p { a with refs := a.refs + 1 } }
  | none => c

/-- Models `Drop for HashConser` (src/lib.rs 321-336): decrement the conser's
own counter; when it reaches zero, `assert!(self.map().len() == 0)` (a failed
assertion is a fatal panic, recorded in `panicked`) and free the conser box. -/
def conserDrop (c : Conf V) : Conf V :=
  let d : Conf V := { c with conserRefs := c.conserRefs - 1 }
  if d.conserRefs = 0 then
    if d.map = [] then { d with conserAlive := false }
    else { d with panicked := true }
  else d

/-- Models `UnsafeRef::make` (src/lib.rs 46-55): allocate a fresh box holding
the value, a clone of the conser (`conser.clone()` increments `conserRefs`),
and `refs = 0`.  Returns the configuration and the fresh pointer. -/
def allocBox (c : Conf V) (v : V) : Conf V × Nat :=
  ({ c with
      heap := (c.next, { value := v, refs := 0 }) :: c.heap,
      next := c.next + 1,
      conserRefs := c.conserRefs + 1 },
   c.next)

/-- Models `UnsafeRef::destroy` (src/lib.rs 57-61): free the box behind the
pointer; dropping the box drops its `conser` field, which runs the conser's
drop glue (`conserDrop`). -/
def destroy (c : Conf V) (p : Nat) : Conf V :=
  conserDrop { c with heap := heapRemove c.heap p }

/-- Lookup of `HashMap<UnsafeRef<T>, UnsafeRef<T>>`: scan the entries, compare
each key's stored value structurally with the probe value (`PartialEq for
UnsafeRef`, src/lib.rs 104-111), and return the entry's value pointer. -/
def mapFind : List (Nat × Cell V) → List (Nat × Nat) → V → Option Nat
  | _, [], _ => none
  | h, e :: m, v =>
    match heapGet h e.1 with
    | some a => if a.value = v then some e.2 else mapFind h m v
    | none => mapFind h m v

/-- `self.map().get(&input)` of `HashConser::make`, keyed by the structural
value held by `input`. -/
def mapGet (c : Conf V) (v : V) : Option Nat :=
  mapFind c.heap c.map v

/-- `HashMap::remove` keyed by structural value: drop the (unique) entry whose
key's stored value equals the probe value. -/
def mapErase : List (Nat × Cell V) → List (Nat × Nat) → V → List (Nat × Nat)
  | _, [], _ => []
  | h, e :: m, v =>
    match heapGet h e.1 with
    | some a => if a.value = v then m else e :: mapErase h m v
    | none => e :: mapErase h m v

/-- Models `HashConser::remove` (src/lib.rs 301-304):
`self.map().remove(hc)`, where `hc` compares by its stored structural value. -/
def remove (c : Conf V) (p : Nat) : Conf V :=
  match heapGet c.heap p with
  | some a => { c with map := mapErase c.heap c.map a.value }
  | none => c

/-- Models `HashConser::make` (src/lib.rs 280-299): build a trial box for the
value; look it up in the map by structural equality; if found, destroy the
trial box and wrap the existing box (`HashConsed::from_unsafe` increments its
count); otherwise insert the trial box as both key and value
(`self.map().insert(input.clone(), input)`) and wrap it. -/
def make (c : Conf V) (v : V) : Conf V × Nat :=
  let a := allocBox c v
  match mapGet a.1 v with
  | some q => (inc_refs (destroy a.1 a.2) q, q)
  | none => (inc_refs { a.1 with map := (a.2, a.2) :: a.1.map } a.2, a.2)

/-- Models `Drop for HashConsed` (src/lib.rs 192-206): `dec_refs`; if the
count is then zero, remove the box from the conser's map and destroy it. -/
def dropHandle (c : Conf V) (p : Nat) : Conf V :=
  match heapGet c.heap p with
  | none => c
  | some _ =>
    let d := dec_refs c p
    if refsAt d p = some 0 then destroy (remove d p) p else d

/-- Models `PartialEq for HashConsed` (src/lib.rs 181-188): identity equality
is pointer equality, `self.0.ptr == other.0.ptr`. -/
def idEq (p q : Nat) : Bool :=
  p == q

/-- Models `Hash for HashConsed` (src/lib.rs 166-175): the identity hash feeds
only the pointer to the hasher, `self.0.ptr.hash(h)`; for any hasher
(abstracted as a function on pointers) the result depends only on the
pointer. -/
def idHash (hasher : Nat → Nat) (p : Nat) : Nat :=
  hasher p

/-- The operations a single-threaded client can perform on one conser. -/
inductive Op (V : Type) where
  | intern : V → Op V
  | cloneH : Nat → Op V
  | dropH : Nat → Op V
  | dropTable : Op V

/-- One client step.  `intern v` calls `HashConser::make` through the owner's
reference and keeps the returned handle; `cloneH i` clones the i-th
outstanding handle (`Clone for HashConsed`, src/lib.rs 217-227: `inc_refs`);
`dropH i` drops it (`Drop for HashConsed`); `dropTable` drops the owner's
`HashConser` value (`Drop for HashConser`).  Operations whose subject no
longer exists (bad index, owner already gone) are not expressible in Rust and
leave the configuration unchanged; after a panic everything has aborted. -/
def step (c : Conf V) (o : Op V) : Conf V :=
  if c.panicked then c else
  match o with
  | Op.intern v =>
    if c.ownerLive && c.conserAlive then
      { (make c v).1 with handles := (make c v).1.handles ++ [(make c v).2] }
    else c
  | Op.cloneH i =>
    match c.handles[i]? with
    | some p => { inc_refs c p with handles := c.handles ++ [p] }
    | none => c
  | Op.dropH i =>
    match c.handles[i]? with
    | some p => { dropHandle c p with handles := c.handles.eraseIdx i }
    | none => c
  | Op.dropTable =>
    if c.ownerLive then conserDrop { c with ownerLive := false } else c

/-- Models `HashConser::new` (src/lib.rs 245-253): empty map, `refs = 1`
(the owner's reference), no allocations yet. -/
def init : Conf V :=
  { heap := [], next := 0, map := [], conserRefs := 1,
    conserAlive := true, ownerLive := true, handles := [], panicked := false }

/-- Run a client interaction from a fresh conser. -/
def run (ops : List (Op V)) : Conf V :=
  List.foldl step init ops

/-- A configuration whose only box has live count zero while still registered:
the state a forced extra release (double release) of the last handle to
`Pair(0,1)` would have to act on. -/
def doubleFreeConf : Conf (Nat × Nat) :=
  { heap := [(0, { value := (0, 1), refs := 0 })], next := 1, map := [(0, 0)],
    conserRefs := 2, conserAlive := true, ownerLive := true, handles := [],
    panicked := false }

/-- A conser about to drop its last reference while its map still holds an
entry: the situation the `assert!` in `Drop for HashConser` guards against. -/
def nonemptyMapConf : Conf (Nat × Nat) :=
  { heap := [], next := 1, map := [(0, 0)], conserRefs := 1, conserAlive := true,
    ownerLive := true, handles := [], panicked := false }

/-- The well-formedness invariant of reachable configurations. -/
structure WF (c : Conf V) : Prop where
  keyVal : ∀ e ∈ c.map, e.1 = e.2
  mapHeap : ∀ e ∈ c.map, (heapGet c.heap e.1).isSome = true
  fresh : ∀ e ∈ c.heap, e.1 < c.next
  refsCount : c.conserRefs = (if c.ownerLive then 1 else 0) + c.heap.length
  distinctVals : c.map.Pairwise (fun a b => valueAtH c.heap a.1 ≠ valueAtH c.heap b.1)
  noPanic : c.panicked = false

theorem heapGet_cons_self (q : Nat) (a : Cell V) (t : List (Nat × Cell V)) :
    heapGet ((q, a) :: t) q = some a := by
  simp [heapGet]

theorem heapGet_cons_ne (q p : Nat) (a : Cell V) (t : List (Nat × Cell V)) (h : q ≠ p) :
    heapGet ((q, a) :: t) p = heapGet t p := by
  simp [heapGet, h]

theorem heapGet_lt_none (h : List (Nat × Cell V)) (n : Nat) (hlt : ∀ e ∈ h, e.1 < n) :
    heapGet h n = none := by
  induction h with
  | nil => rfl
  | cons e t ih =>
    obtain ⟨q, a⟩ := e
    have hq : q ≠ n := Nat.ne_of_lt (hlt (q, a) (List.mem_cons_self _ _))
    rw [heapGet_cons_ne q n a t hq]
    exact ih fun e he => hlt e (List.mem_cons_of_mem _ he)

theorem heapSet_cons_self (q : Nat) (x b : Cell V) (t : List (Nat × Cell V)) :
    heapSet ((q, x) :: t) q b = (q, b) :: t := by
  simp [heapSet]

theorem heapSet_cons_ne (q p : Nat) (x b : Cell V) (t : List (Nat × Cell V)) (h : q ≠ p) :
    heapSet ((q, x) :: t) p b = (q, x) :: heapSet t p b := by
  simp [heapSet, h]

theorem heapGet_set_eq (h : List (Nat × Cell V)) (p : Nat) (a b : Cell V)
    (hg : heapGet h p = some a) : heapGet (heapSet h p b) p = some b := by
  induction h with
  | nil => simp [heapGet] at hg
  | cons e t ih =>
    obtain ⟨q, x⟩ := e
    by_cases hqp : q = p
    · subst hqp
      rw [heapSet_cons_self, heapGet_cons_self]
    · rw [heapGet_cons_ne q p x t hqp] at hg
      rw [heapSet_cons_ne q p x b t hqp, heapGet_cons_ne q p x _ hqp]
      exact ih hg

theorem heapGet_set_ne (h : List (Nat × Cell V)) (p r : Nat) (b : Cell V) (hrp : r ≠ p) :
    heapGet (heapSet h p b) r = heapGet h r := by
  induction h with
  | nil => rfl
  | cons e t ih =>
    obtain ⟨q, x⟩ := e
    by_cases hqp : q = p
    · subst hqp
      have hqr : q ≠ r := fun hEq => hrp hEq.symm
      rw [heapSet_cons_self, heapGet_cons_ne q r b t hqr, heapGet_cons_ne q r x t hqr]
    · rw [heapSet_cons_ne q p x b t hqp]
      by_cases hqr : q = r
      · subst hqr
        rw [heapGet_cons_self, heapGet_cons_self]
      · rw [heapGet_cons_ne q r x _ hqr, heapGet_cons_ne q r x t hqr]
        exact ih

theorem heapSet_length (h : List (Nat × Cell V)) (p : Nat) (b : Cell V) :
    (heapSet h p b).length = h.length := by
  induction h with
  | nil => rfl
  | cons e t ih =>
    obtain ⟨q, x⟩ := e
    by_cases hqp : q = p <;> simp [heapSet, hqp, ih]

theorem heapSet_keys_lt (h : List (Nat × Cell V)) (p n : Nat) (b : Cell V)
    (hlt : ∀ e ∈ h, e.1 < n) : ∀ e ∈ heapSet h p b, e.1 < n := by
  induction h with
  | nil => intro e he; simp [heapSet] at he
  | cons x t ih =>
    obtain ⟨q, a⟩ := x
    intro e he
    by_cases hqp : q = p
    · subst hqp
      simp only [heapSet, if_pos rfl] at he
      rcases List.mem_cons.mp he with rfl | hm
      · exact hlt (q, a) (List.mem_cons_self _ _)
      · exact hlt e (List.mem_cons_of_mem _ hm)
    · simp only [heapSet, if_neg hqp] at he
      rcases List.mem_cons.mp he with rfl | hm
      · exact hlt (q, a) (List.mem_cons_self _ _)
      · exact ih (fun e he => hlt e (List.mem_cons_of_mem _ he)) e hm

theorem valueAtH_set_refs (h : List (Nat × Cell V)) (p r : Nat) (a : Cell V) (k : Nat)
    (hg : heapGet h p = some a) :
    valueAtH (heapSet h p { a with refs := k }) r = valueAtH h r := by
  by_cases hrp : r = p
  · subst hrp
    unfold valueAtH
    rw [heapGet_set_eq h r a _ hg, hg]
    rfl
  · unfold valueAtH
    rw [heapGet_set_ne h p r _ hrp]

theorem dec_refs_eq_inc (c : Conf V) (p : Nat) : dec_refs c p = inc_refs c p := rfl

theorem inc_refs_valueAt (c : Conf V) (p r : Nat) :
    valueAt (inc_refs c p) r = valueAt c r := by
  cases hg : heapGet c.heap p with
  | none => simp [inc_refs, hg]
  | some a =>
    have h1 : inc_refs c p = { c with heap := heapSet c.heap p { a with refs := a.refs + 1 } } := by
      simp [inc_refs, hg]
    rw [h1]
    exact valueAtH_set_refs c.heap p r a _ hg

theorem inc_refs_map (c : Conf V) (p : Nat) : (inc_refs c p).map = c.map := by
  cases hg : heapGet c.heap p <;> simp [inc_refs, hg]

theorem inc_refs_next (c : Conf V) (p : Nat) : (inc_refs c p).next = c.next := by
  cases hg : heapGet c.heap p <;> simp [inc_refs, hg]

theorem inc_refs_conserRefs (c : Conf V) (p : Nat) :
    (inc_refs c p).conserRefs = c.conserRefs := by
  cases hg : heapGet c.heap p <;> simp [inc_refs, hg]

theorem inc_refs_conserAlive (c : Conf V) (p : Nat) :
    (inc_refs c p).conserAlive = c.conserAlive := by
  cases hg : heapGet c.heap p <;> simp [inc_refs, hg]

theorem inc_refs_ownerLive (c : Conf V) (p : Nat) :
    (inc_refs c p).ownerLive = c.ownerLive := by
  cases hg : heapGet c.heap p <;> simp [inc_refs, hg]

theorem inc_refs_handles (c : Conf V) (p : Nat) : (inc_refs c p).handles = c.handles := by
  cases hg : heapGet c.heap p <;> simp [inc_refs, hg]

theorem inc_refs_panicked (c : Conf V) (p : Nat) : (inc_refs c p).panicked = c.panicked := by
  cases hg : heapGet c.heap p <;> simp [inc_refs, hg]

theorem inc_refs_heap_length (c : Conf V) (p : Nat) :
    (inc_refs c p).heap.length = c.heap.length := by
  cases hg : heapGet c.heap p <;> simp [inc_refs, hg, heapSet_length]

theorem inc_refs_isSome (c : Conf V) (p r : Nat) :
    (heapGet (inc_refs c p).heap r).isSome = (heapGet c.heap r).isSome := by
  cases hg : heapGet c.heap p with
  | none => simp [inc_refs, hg]
  | some a =>
    by_cases hrp : r = p
    · subst hrp
      simp [inc_refs, hg, heapGet_set_eq c.heap r a _ hg]
    · simp [inc_refs, hg, heapGet_set_ne c.heap p r _ hrp]

theorem inc_refs_refsAt_eq (c : Conf V) (p : Nat) (a : Cell V)
    (hg : heapGet c.heap p = some a) :
    refsAt (inc_refs c p) p = some (a.refs + 1) := by
  simp [inc_refs, hg, refsAt, heapGet_set_eq c.heap p a _ hg]

theorem inc_refs_fresh (c : Conf V) (p n : Nat) (hlt : ∀ e ∈ c.heap, e.1 < n) :
    ∀ e ∈ (inc_refs c p).heap, e.1 < n := by
  cases hg : heapGet c.heap p with
  | none => simpa [inc_refs, hg] using hlt
  | some a =>
    simp only [inc_refs, hg]
    exact heapSet_keys_lt c.heap p n _ hlt

theorem mapFind_congr (h1 h2 : List (Nat × Cell V)) (m : List (Nat × Nat)) (v : V)
    (hv : ∀ e ∈ m, valueAtH h1 e.1 = valueAtH h2 e.1) :
    mapFind h1 m v = mapFind h2 m v := by
  induction m with
  | nil => rfl
  | cons e t ih =>
    have he := hv e (List.mem_cons_self _ _)
    have ht : ∀ x ∈ t, valueAtH h1 x.1 = valueAtH h2 x.1 :=
      fun x hx => hv x (List.mem_cons_of_mem _ hx)
    unfold valueAtH at he
    cases hg1 : heapGet h1 e.1 with
    | none =>
      cases hg2 : heapGet h2 e.1 with
      | none => simp [mapFind, hg1, hg2, ih ht]
      | some a2 => rw [hg1, hg2] at he; simp at he
    | some a1 =>
      cases hg2 : heapGet h2 e.1 with
      | none => rw [hg1, hg2] at he; simp at he
      | some a2 =>
        rw [hg1, hg2] at he
        have hval : a1.value = a2.value := by simpa using he
        by_cases hv1 : a1.value = v
        · have hv2 : a2.value = v := hval ▸ hv1
          simp [mapFind, hg1, hg2, hv1, hv2]
        · have hv2 : ¬ a2.value = v := fun hEq => hv1 (hval ▸ hEq)
          simp [mapFind, hg1, hg2, hv1, hv2, ih ht]

theorem mapFind_some (h : List (Nat × Cell V)) (m : List (Nat × Nat)) (v : V) (q : Nat) :
    mapFind h m v = some q → ∃ e ∈ m, e.2 = q ∧ valueAtH h e.1 = some v := by
  induction m with
  | nil => intro hf; simp [mapFind] at hf
  | cons e t ih =>
    intro hf
    cases hg : heapGet h e.1 with
    | none =>
      simp only [mapFind, hg] at hf
      obtain ⟨x, hx, hx2, hx3⟩ := ih hf
      exact ⟨x, List.mem_cons_of_mem _ hx, hx2, hx3⟩
    | some a =>
      simp only [mapFind, hg] at hf
      by_cases hav : a.value = v
      · rw [if_pos hav] at hf
        refine ⟨e, List.mem_cons_self _ _, by simpa using hf, ?_⟩
        unfold valueAtH
        rw [hg]
        simp [hav]
      · rw [if_neg hav] at hf
        obtain ⟨x, hx, hx2, hx3⟩ := ih hf
        exact ⟨x, List.mem_cons_of_mem _ hx, hx2, hx3⟩

theorem mapFind_none (h : List (Nat × Cell V)) (m : List (Nat × Nat)) (v : V) :
    mapFind h m v = none → ∀ e ∈ m, valueAtH h e.1 ≠ some v := by
  induction m with
  | nil => intro _ e he; cases he
  | cons x t ih =>
    intro hf e he
    cases hg : heapGet h x.1 with
    | none =>
      simp only [mapFind, hg] at hf
      rcases List.mem_cons.mp he with rfl | hm
      · unfold valueAtH
        rw [hg]
        simp
      · exact ih hf e hm
    | some a =>
      simp only [mapFind, hg] at hf
      by_cases hav : a.value = v
      · rw [if_pos hav] at hf
        cases hf
      · rw [if_neg hav] at hf
        rcases List.mem_cons.mp he with rfl | hm
        · unfold valueAtH
          rw [hg]
          simpa using hav
        · exact ih hf e hm

theorem mapFind_mem (h : List (Nat × Cell V)) (m : List (Nat × Nat)) (v : V) (e : Nat × Nat) :
    m.Pairwise (fun a b => valueAtH h a.1 ≠ valueAtH h b.1) → e ∈ m →
    valueAtH h e.1 = some v → mapFind h m v = some e.2 := by
  induction m with
  | nil => intro _ he; cases he
  | cons x t ih =>
    intro hp he hv
    rcases List.mem_cons.mp he with rfl | hmem
    · unfold valueAtH at hv
      cases hg : heapGet h e.1 with
      | none => rw [hg] at hv; cases hv
      | some a =>
        rw [hg] at hv
        have hav : a.value = v := by simpa using hv
        simp only [mapFind, hg]
        rw [if_pos hav]
    · have hx : valueAtH h x.1 ≠ valueAtH h e.1 := (List.pairwise_cons.mp hp).1 e hmem
      have ht := (List.pairwise_cons.mp hp).2
      cases hg : heapGet h x.1 with
      | none =>
        simp only [mapFind, hg]
        exact ih ht hmem hv
      | some a =>
        have hav : ¬ a.value = v := by
          intro hav
          apply hx
          rw [hv]
          unfold valueAtH
          rw [hg]
          simp [hav]
        simp only [mapFind, hg]
        rw [if_neg hav]
        exact ih ht hmem hv

theorem mapErase_subset (h : List (Nat × Cell V)) (m : List (Nat × Nat)) (v : V) :
    ∀ e ∈ mapErase h m v, e ∈ m := by
  induction m with
  | nil => intro e he; simp [mapErase] at he
  | cons x t ih =>
    intro e he
    cases hg : heapGet h x.1 with
    | none =>
      simp only [mapErase, hg] at he
      rcases List.mem_cons.mp he with rfl | hm
      · exact List.mem_cons_self _ _
      · exact List.mem_cons_of_mem _ (ih e hm)
    | some a =>
      simp only [mapErase, hg] at he
      by_cases hav : a.value = v
      · rw [if_pos hav] at he
        exact List.mem_cons_of_mem _ he
      · rw [if_neg hav] at he
        rcases List.mem_cons.mp he with rfl | hm
        · exact List.mem_cons_self _ _
        · exact List.mem_cons_of_mem _ (ih e hm)

theorem ne_next_of_isSome (c : Conf V) (p : Nat) (wf : WF c)
    (hs : (heapGet c.heap p).isSome = true) : c.next ≠ p := by
  intro hEq
  rw [← hEq, heapGet_lt_none c.heap c.next wf.fresh] at hs
  cases hs

theorem mapFind_cons_fresh (c : Conf V) (a : Cell V) (w : V) (wf : WF c) :
    mapFind ((c.next, a) :: c.heap) c.map w = mapFind c.heap c.map w := by
  apply mapFind_congr
  intro e he
  have hne : c.next ≠ e.1 := ne_next_of_isSome c e.1 wf (wf.mapHeap e he)
  unfold valueAtH
  rw [heapGet_cons_ne c.next e.1 a c.heap hne]

theorem conserDrop_fields (c : Conf V) :
    (conserDrop c).heap = c.heap ∧ (conserDrop c).map = c.map ∧
    (conserDrop c).next = c.next ∧ (conserDrop c).ownerLive = c.ownerLive ∧
    (conserDrop c).handles = c.handles := by
  unfold conserDrop
  by_cases h0 : c.conserRefs - 1 = 0
  · by_cases hm : c.map = [] <;> simp [h0, hm]
  · simp [h0]

theorem mapGet_allocBox (c : Conf V) (v w : V) (wf : WF c) :
    mapGet (allocBox c v).1 w = mapGet c w := by
  show mapFind ((c.next, { value := v, refs := 0 }) :: c.heap) c.map w = mapFind c.heap c.map w
  exact mapFind_cons_fresh c _ w wf

theorem destroy_allocBox (c : Conf V) (v : V) (hcr : c.conserRefs ≠ 0) :
    destroy (allocBox c v).1 (allocBox c v).2 = { c with next := c.next + 1 } := by
  unfold destroy allocBox conserDrop
  simp [heapRemove, hcr]

theorem conserRefs_pos_of_mapGet (c : Conf V) (v : V) (q : Nat) (wf : WF c)
    (hq : mapGet c v = some q) : c.conserRefs ≠ 0 := by
  obtain ⟨e, hem, -, -⟩ := mapFind_some c.heap c.map v q hq
  have hs := wf.mapHeap e hem
  have hlen : 0 < c.heap.length := by
    cases hh : c.heap with
    | nil => rw [hh] at hs; simp [heapGet] at hs
    | cons x t => simp [hh]
  intro hzero
  have hrc := wf.refsCount
  rw [hzero] at hrc
  cases how : c.ownerLive <;> rw [how] at hrc <;> simp at hrc <;> omega

theorem make_found_result (c : Conf V) (v : V) (q : Nat) (wf : WF c)
    (hq : mapGet c v = some q) :
    make c v = (inc_refs { c with next := c.next + 1 } q, q) := by
  have h1 : mapGet (allocBox c v).1 v = some q := by
    rw [mapGet_allocBox c v v wf]
    exact hq
  simp only [make, h1]
  rw [destroy_allocBox c v (conserRefs_pos_of_mapGet c v q wf hq)]

theorem make_new_result (c : Conf V) (v : V) (wf : WF c) (hn : mapGet c v = none) :
    make c v = ({ c with heap := (c.next, { value := v, refs := 1 }) :: c.heap,
                         next := c.next + 1,
                         map := (c.next, c.next) :: c.map,
                         conserRefs := c.conserRefs + 1 }, c.next) := by
  have h1 : mapGet (allocBox c v).1 v = none := by
    rw [mapGet_allocBox c v v wf]
    exact hn
  simp only [make, h1]
  simp [inc_refs, allocBox, heapGet_cons_self, heapSet_cons_self]

theorem inc_refs_mapGet (c : Conf V) (p : Nat) (w : V) :
    mapGet (inc_refs c p) w = mapGet c w := by
  unfold mapGet
  rw [inc_refs_map]
  apply mapFind_congr
  intro e he
  exact inc_refs_valueAt c p e.1

theorem mapGet_value (c : Conf V) (v : V) (q : Nat) (wf : WF c) (hq : mapGet c v = some q) :
    valueAt c q = some v := by
  obtain ⟨e, hem, he2, hev⟩ := mapFind_some c.heap c.map v q hq
  have he1 : e.1 = e.2 := wf.keyVal e hem
  show valueAtH c.heap q = some v
  rw [← he2, ← he1]
  exact hev

theorem make_snd_value (c : Conf V) (v : V) (wf : WF c) :
    valueAt (make c v).1 (make c v).2 = some v := by
  cases hq : mapGet c v with
  | some q =>
    rw [make_found_result c v q wf hq]
    show valueAt (inc_refs { c with next := c.next + 1 } q) q = some v
    rw [inc_refs_valueAt]
    exact mapGet_value c v q wf hq
  | none =>
    rw [make_new_result c v wf hq]
    show valueAtH ((c.next, { value := v, refs := 1 }) :: c.heap) c.next = some v
    unfold valueAtH
    rw [heapGet_cons_self]
    rfl

theorem isSome_of_valueAt (c : Conf V) (p : Nat) (w : V) (hv : valueAt c p = some w) :
    (heapGet c.heap p).isSome = true := by
  unfold valueAt valueAtH at hv
  cases hg : heapGet c.heap p with
  | none => rw [hg] at hv; cases hv
  | some a => simp [hg]

theorem make_preserves_valueAt (c : Conf V) (v : V) (p : Nat) (wf : WF c)
    (hs : (heapGet c.heap p).isSome = true) :
    valueAt (make c v).1 p = valueAt c p := by
  cases hq : mapGet c v with
  | some q =>
    rw [make_found_result c v q wf hq]
    show valueAt (inc_refs { c with next := c.next + 1 } q) p = valueAt c p
    rw [inc_refs_valueAt]
    rfl
  | none =>
    rw [make_new_result c v wf hq]
    have hne : c.next ≠ p := ne_next_of_isSome c p wf hs
    show valueAtH ((c.next, { value := v, refs := 1 }) :: c.heap) p = valueAtH c.heap p
    unfold valueAtH
    rw [heapGet_cons_ne _ _ _ _ hne]

theorem make_self_lookup (c : Conf V) (v : V) (wf : WF c) :
    mapGet (make c v).1 v = some (make c v).2 := by
  cases hq : mapGet c v with
  | some q =>
    rw [make_found_result c v q wf hq]
    show mapGet (inc_refs { c with next := c.next + 1 } q) v = some q
    rw [inc_refs_mapGet]
    exact hq
  | none =>
    rw [make_new_result c v wf hq]
    show mapFind ((c.next, { value := v, refs := 1 }) :: c.heap)
        ((c.next, c.next) :: c.map) v = some c.next
    simp [mapFind, heapGet_cons_self]

theorem make_mapGet_mono (c : Conf V) (v w : V) (q : Nat) (wf : WF c)
    (hq : mapGet c w = some q) : mapGet (make c v).1 w = some q := by
  cases hv : mapGet c v with
  | some r =>
    rw [make_found_result c v r wf hv]
    show mapGet (inc_refs { c with next := c.next + 1 } r) w = some q
    rw [inc_refs_mapGet]
    exact hq
  | none =>
    rw [make_new_result c v wf hv]
    by_cases hwv : w = v
    · subst hwv
      rw [hv] at hq
      cases hq
    · show mapFind ((c.next, { value := v, refs := 1 }) :: c.heap)
          ((c.next, c.next) :: c.map) w = some q
      have hhead : ¬ ({ value := v, refs := 1 } : Cell V).value = w :=
        fun hEq => hwv hEq.symm
      simp only [mapFind, heapGet_cons_self]
      rw [if_neg hhead, mapFind_cons_fresh c _ w wf]
      exact hq

theorem WF_handles (c : Conf V) (hs : List Nat) (wf : WF c) : WF { c with handles := hs } :=
  ⟨wf.keyVal, wf.mapHeap, wf.fresh, wf.refsCount, wf.distinctVals, wf.noPanic⟩

theorem WF_next (c : Conf V) (wf : WF c) : WF { c with next := c.next + 1 } := by
  refine ⟨wf.keyVal, wf.mapHeap, ?_, wf.refsCount, wf.distinctVals, wf.noPanic⟩
  intro e he
  exact Nat.lt_succ_of_lt (wf.fresh e he)

theorem WF_inc (c : Conf V) (p : Nat) (wf : WF c) : WF (inc_refs c p) := by
  constructor
  · intro e he
    rw [inc_refs_map] at he
    exact wf.keyVal e he
  · intro e he
    rw [inc_refs_map] at he
    rw [inc_refs_isSome]
    exact wf.mapHeap e he
  · intro e he
    rw [inc_refs_next]
    exact inc_refs_fresh c p c.next wf.fresh e he
  · rw [inc_refs_conserRefs, inc_refs_ownerLive, inc_refs_heap_length]
    exact wf.refsCount
  · rw [inc_refs_map]
    refine wf.distinctVals.imp ?_
    intro a b hab
    rw [show valueAtH (inc_refs c p).heap a.1 = valueAtH c.heap a.1 from inc_refs_valueAt c p a.1,
        show valueAtH (inc_refs c p).heap b.1 = valueAtH c.heap b.1 from inc_refs_valueAt c p b.1]
    exact hab
  · rw [inc_refs_panicked]
    exact wf.noPanic

theorem WF_make (c : Conf V) (v : V) (wf : WF c) : WF (make c v).1 := by
  cases hq : mapGet c v with
  | some q =>
    rw [make_found_result c v q wf hq]
    exact WF_inc _ q (WF_next c wf)
  | none =>
    rw [make_new_result c v wf hq]
    constructor
    · intro e he
      rcases List.mem_cons.mp he with rfl | hm
      · rfl
      · exact wf.keyVal e hm
    · intro e he
      rcases List.mem_cons.mp he with rfl | hm
      · show (heapGet ((c.next, { value := v, refs := 1 }) :: c.heap) c.next).isSome = true
        rw [heapGet_cons_self]
        rfl
      · have hne : c.next ≠ e.1 := ne_next_of_isSome c e.1 wf (wf.mapHeap e hm)
        show (heapGet ((c.next, { value := v, refs := 1 }) :: c.heap) e.1).isSome = true
        rw [heapGet_cons_ne _ _ _ _ hne]
        exact wf.mapHeap e hm
    · intro e he
      rcases List.mem_cons.mp he with rfl | hm
      · exact Nat.lt_succ_self _
      · exact Nat.lt_succ_of_lt (wf.fresh e hm)
    · show c.conserRefs + 1 =
        (if c.ownerLive then 1 else 0) + ((c.next, { value := v, refs := 1 }) :: c.heap).length
      rw [wf.refsCount, List.length_cons]
      cases c.ownerLive <;> (simp; try omega)
    · refine List.pairwise_cons.mpr ⟨?_, ?_⟩
      · intro b hb
        have hne : c.next ≠ b.1 := ne_next_of_isSome c b.1 wf (wf.mapHeap b hb)
        have h2 : valueAtH ((c.next, { value := v, refs := 1 }) :: c.heap) b.1 =
            valueAtH c.heap b.1 := by
          unfold valueAtH
          rw [heapGet_cons_ne _ _ _ _ hne]
        have h3 : valueAtH c.heap b.1 ≠ some v := mapFind_none c.heap c.map v hq b hb
        have h1 : valueAtH ((c.next, { value := v, refs := 1 }) :: c.heap) c.next = some v := by
          unfold valueAtH
          rw [heapGet_cons_self]
          rfl
        show valueAtH ((c.next, { value := v, refs := 1 }) :: c.heap) c.next ≠
            valueAtH ((c.next, { value := v, refs := 1 }) :: c.heap) b.1
        rw [h1, h2]
        exact fun hEq => h3 hEq.symm
      · refine wf.distinctVals.imp_of_mem ?_
        intro a b ha hb hab
        have hnea : c.next ≠ a.1 := ne_next_of_isSome c a.1 wf (wf.mapHeap a ha)
        have hneb : c.next ≠ b.1 := ne_next_of_isSome c b.1 wf (wf.mapHeap b hb)
        show valueAtH ((c.next, { value := v, refs := 1 }) :: c.heap) a.1 ≠
            valueAtH ((c.next, { value := v, refs := 1 }) :: c.heap) b.1
        unfold valueAtH
        rw [heapGet_cons_ne _ _ _ _ hnea, heapGet_cons_ne _ _ _ _ hneb]
        exact hab
    · exact wf.noPanic

theorem dropHandle_eq_dec (c : Conf V) (p : Nat) : dropHandle c p = dec_refs c p := by
  cases hg : heapGet c.heap p with
  | none => simp [dropHandle, dec_refs, hg]
  | some a =>
    have hr : refsAt (dec_refs c p) p = some (a.refs + 1) := by
      rw [dec_refs_eq_inc]
      exact inc_refs_refsAt_eq c p a hg
    simp [dropHandle, hg, hr]

theorem step_panicked (c : Conf V) (o : Op V) (hp : c.panicked = true) : step c o = c := by
  simp [step, hp]

theorem step_intern (c : Conf V) (v : V) (hp : c.panicked = false)
    (hg : (c.ownerLive && c.conserAlive) = true) :
    step c (Op.intern v) =
      { (make c v).1 with handles := (make c v).1.handles ++ [(make c v).2] } := by
  simp [step, hp, hg]

theorem step_intern_stuck (c : Conf V) (v : V) (hp : c.panicked = false)
    (hg : ¬ (c.ownerLive && c.conserAlive) = true) :
    step c (Op.intern v) = c := by
  simp [step, hp, hg]

theorem step_cloneH (c : Conf V) (i p : Nat) (hp : c.panicked = false)
    (hi : c.handles[i]? = some p) :
    step c (Op.cloneH i) = { inc_refs c p with handles := c.handles ++ [p] } := by
  simp [step, hp, hi]

theorem step_cloneH_none (c : Conf V) (i : Nat) (hp : c.panicked = false)
    (hi : c.handles[i]? = none) :
    step c (Op.cloneH i) = c := by
  simp [step, hp, hi]

theorem step_dropH (c : Conf V) (i p : Nat) (hp : c.panicked = false)
    (hi : c.handles[i]? = some p) :
    step c (Op.dropH i) = { dropHandle c p with handles := c.handles.eraseIdx i } := by
  simp [step, hp, hi]

theorem step_dropH_none (c : Conf V) (i : Nat) (hp : c.panicked = false)
    (hi : c.handles[i]? = none) :
    step c (Op.dropH i) = c := by
  simp [step, hp, hi]

theorem step_dropTable (c : Conf V) (hp : c.panicked = false) (ho : c.ownerLive = true) :
    step c Op.dropTable = conserDrop { c with ownerLive := false } := by
  simp [step, hp, ho]

theorem step_dropTable_dead (c : Conf V) (hp : c.panicked = false) (ho : c.ownerLive = false) :
    step c Op.dropTable = c := by
  simp [step, hp, ho]

theorem WF_conserDrop_owner (c : Conf V) (wf : WF c) (ho : c.ownerLive = true) :
    WF (conserDrop { c with ownerLive := false }) := by
  unfold conserDrop
  by_cases h0 : c.conserRefs - 1 = 0
  · have hlen : c.heap.length = 0 := by
      have hrc := wf.refsCount
      rw [ho] at hrc
      simp at hrc
      omega
    have hheap : c.heap = [] := List.length_eq_zero.mp hlen
    have hmap : c.map = [] := by
      cases hm : c.map with
      | nil => rfl
      | cons e t =>
        have hs := wf.mapHeap e (by rw [hm]; exact List.mem_cons_self _ _)
        rw [hheap] at hs
        simp [heapGet] at hs
    rw [if_pos h0, if_pos (by simpa using hmap)]
    refine ⟨?_, ?_, ?_, ?_, ?_, ?_⟩
    · intro e he
      rw [hmap] at he
      cases he
    · intro e he
      rw [hmap] at he
      cases he
    · intro e he
      exact wf.fresh e he
    · show c.conserRefs - 1 = 0 + c.heap.length
      omega
    · rw [hmap]
      exact List.Pairwise.nil
    · exact wf.noPanic
  · rw [if_neg h0]
    refine ⟨wf.keyVal, wf.mapHeap, wf.fresh, ?_, wf.distinctVals, wf.noPanic⟩
    show c.conserRefs - 1 = 0 + c.heap.length
    have hrc := wf.refsCount
    rw [ho] at hrc
    simp at hrc
    omega

theorem WF_step (c : Conf V) (o : Op V) (wf : WF c) : WF (step c o) := by
  cases o with
  | intern v =>
    by_cases hg : (c.ownerLive && c.conserAlive) = true
    · rw [step_intern c v wf.noPanic hg]
      exact WF_handles _ _ (WF_make c v wf)
    · rw [step_intern_stuck c v wf.noPanic hg]
      exact wf
  | cloneH i =>
    cases hi : c.handles[i]? with
    | some p =>
      rw [step_cloneH c i p wf.noPanic hi]
      exact WF_handles _ _ (WF_inc c p wf)
    | none =>
      rw [step_cloneH_none c i wf.noPanic hi]
      exact wf
  | dropH i =>
    cases hi : c.handles[i]? with
    | some p =>
      rw [step_dropH c i p wf.noPanic hi, dropHandle_eq_dec, dec_refs_eq_inc]
      exact WF_handles _ _ (WF_inc c p wf)
    | none =>
      rw [step_dropH_none c i wf.noPanic hi]
      exact wf
  | dropTable =>
    by_cases ho : c.ownerLive = true
    · rw [step_dropTable c wf.noPanic ho]
      exact WF_conserDrop_owner c wf ho
    · rw [step_dropTable_dead c wf.noPanic (by simpa using ho)]
      exact wf

theorem WF_init : WF (init : Conf V) := by
  refine ⟨?_, ?_, ?_, ?_, ?_, ?_⟩ <;> simp [init]

theorem WF_foldl (c : Conf V) (l : List (Op V)) (wf : WF c) : WF (List.foldl step c l) := by
  induction l generalizing c with
  | nil => exact wf
  | cons o t ih => exact ih (step c o) (WF_step c o wf)

theorem WF_run (ops : List (Op V)) : WF (run ops) :=
  WF_foldl init ops WF_init

theorem conserDrop_mapGet (c : Conf V) (w : V) : mapGet (conserDrop c) w = mapGet c w := by
  unfold mapGet
  rw [(conserDrop_fields c).1, (conserDrop_fields c).2.1]

theorem conserDrop_valueAt (c : Conf V) (p : Nat) : valueAt (conserDrop c) p = valueAt c p := by
  unfold valueAt
  rw [(conserDrop_fields c).1]

theorem step_mapGet_mono (c : Conf V) (o : Op V) (w : V) (q : Nat) (wf : WF c)
    (hq : mapGet c w = some q) : mapGet (step c o) w = some q := by
  cases o with
  | intern v =>
    by_cases hg : (c.ownerLive && c.conserAlive) = true
    · rw [step_intern c v wf.noPanic hg]
      show mapGet (make c v).1 w = some q
      exact make_mapGet_mono c v w q wf hq
    · rw [step_intern_stuck c v wf.noPanic hg]
      exact hq
  | cloneH i =>
    cases hi : c.handles[i]? with
    | some p =>
      rw [step_cloneH c i p wf.noPanic hi]
      show mapGet (inc_refs c p) w = some q
      rw [inc_refs_mapGet]
      exact hq
    | none =>
      rw [step_cloneH_none c i wf.noPanic hi]
      exact hq
  | dropH i =>
    cases hi : c.handles[i]? with
    | some p =>
      rw [step_dropH c i p wf.noPanic hi]
      show mapGet (dropHandle c p) w = some q
      rw [dropHandle_eq_dec, dec_refs_eq_inc, inc_refs_mapGet]
      exact hq
    | none =>
      rw [step_dropH_none c i wf.noPanic hi]
      exact hq
  | dropTable =>
    by_cases ho : c.ownerLive = true
    · rw [step_dropTable c wf.noPanic ho, conserDrop_mapGet]
      exact hq
    · rw [step_dropTable_dead c wf.noPanic (by simpa using ho)]
      exact hq

theorem step_valueAt_mono (c : Conf V) (o : Op V) (p : Nat) (w : V) (wf : WF c)
    (hv : valueAt c p = some w) : valueAt (step c o) p = some w := by
  cases o with
  | intern v =>
    by_cases hg : (c.ownerLive && c.conserAlive) = true
    · rw [step_intern c v wf.noPanic hg]
      show valueAt (make c v).1 p = some w
      rw [make_preserves_valueAt c v p wf (isSome_of_valueAt c p w hv)]
      exact hv
    · rw [step_intern_stuck c v wf.noPanic hg]
      exact hv
  | cloneH i =>
    cases hi : c.handles[i]? with
    | some r =>
      rw [step_cloneH c i r wf.noPanic hi]
      show valueAt (inc_refs c r) p = some w
      rw [inc_refs_valueAt]
      exact hv
    | none =>
      rw [step_cloneH_none c i wf.noPanic hi]
      exact hv
  | dropH i =>
    cases hi : c.handles[i]? with
    | some r =>
      rw [step_dropH c i r wf.noPanic hi]
      show valueAt (dropHandle c r) p = some w
      rw [dropHandle_eq_dec, dec_refs_eq_inc, inc_refs_valueAt]
      exact hv
    | none =>
      rw [step_dropH_none c i wf.noPanic hi]
      exact hv
  | dropTable =>
    by_cases ho : c.ownerLive = true
    · rw [step_dropTable c wf.noPanic ho, conserDrop_valueAt]
      exact hv
    · rw [step_dropTable_dead c wf.noPanic (by simpa using ho)]
      exact hv

theorem foldl_mapGet_mono (c : Conf V) (l : List (Op V)) (w : V) (q : Nat) (wf : WF c)
    (hq : mapGet c w = some q) : mapGet (List.foldl step c l) w = some q := by
  induction l generalizing c with
  | nil => exact hq
  | cons o t ih => exact ih (step c o) (WF_step c o wf) (step_mapGet_mono c o w q wf hq)

theorem foldl_valueAt_mono (c : Conf V) (l : List (Op V)) (p : Nat) (w : V) (wf : WF c)
    (hv : valueAt c p = some w) : valueAt (List.foldl step c l) p = some w := by
  induction l generalizing c with
  | nil => exact hv
  | cons o t ih => exact ih (step c o) (WF_step c o wf) (step_valueAt_mono c o p w wf hv)

theorem canonical_pair (d : Conf V) (v1 v2 : V) (p1 : Nat) (wf : WF d)
    (hl : mapGet d v1 = some p1) (hv : valueAt d p1 = some v1) :
    ((make d v2).2 = p1 ↔ v1 = v2) ∧
    valueAt (make d v2).1 p1 = some v1 ∧
    valueAt (make d v2).1 (make d v2).2 = some v2 := by
  have hB : valueAt (make d v2).1 p1 = some v1 := by
    rw [make_preserves_valueAt d v2 p1 wf (isSome_of_valueAt d p1 v1 hv)]
    exact hv
  have hC : valueAt (make d v2).1 (make d v2).2 = some v2 := make_snd_value d v2 wf
  refine ⟨⟨?_, ?_⟩, hB, hC⟩
  · intro hEq
    rw [hEq] at hC
    rw [hB] at hC
    exact Option.some.inj hC
  · intro hEq
    subst hEq
    rw [make_found_result d v1 p1 wf hl]

theorem conserDrop_conserRefs (c : Conf V) :
    (conserDrop c).conserRefs = c.conserRefs - 1 := by
  unfold conserDrop
  by_cases h0 : c.conserRefs - 1 = 0
  · by_cases hm : c.map = [] <;> simp [h0, hm]
  · simp [h0]

theorem map_nil_of_heap_nil (c : Conf V) (wf : WF c) (hh : c.heap = []) : c.map = [] := by
  cases hm : c.map with
  | nil => rfl
  | cons e t =>
    have hs := wf.mapHeap e (by rw [hm]; exact List.mem_cons_self _ _)
    rw [hh] at hs
    simp [heapGet] at hs

theorem conserDrop_last (c : Conf V) (h0 : c.conserRefs - 1 = 0) (hm : c.map = []) :
    conserDrop c = { c with conserRefs := c.conserRefs - 1, conserAlive := false } := by
  simp only [conserDrop]
  rw [if_pos h0, if_pos hm]

theorem conserDrop_violation (c : Conf V) (h0 : c.conserRefs - 1 = 0) (hm : ¬ c.map = []) :
    conserDrop c = { c with conserRefs := c.conserRefs - 1, panicked := true } := by
  simp only [conserDrop]
  rw [if_pos h0, if_neg hm]

/-- C1: in any reachable state of a conser, for any two `make` (intern) calls —
with arbitrary further operations between them — the returned handles are
identity-equal (same pointer, i.e. same backing box) exactly when the interned
values are structurally equal; the values stored behind the two returned
pointers are the interned values, so structurally distinct inputs yield
distinct pointers whose underlying values differ. -/
theorem claim1_intern_canonical (ops mid : List (Op V)) (v1 v2 : V)
    (c c2 : Conf V) (h1 h2 : Conf V × Nat)
    (hc : c = run ops) (hh1 : h1 = make c v1)
    (hc2 : c2 = List.foldl step { h1.1 with handles := h1.1.handles ++ [h1.2] } mid)
    (hh2 : h2 = make c2 v2) :
    (h2.2 = h1.2 ↔ v1 = v2) ∧
    valueAt h2.1 h1.2 = some v1 ∧
    valueAt h2.1 h2.2 = some v2 ∧
    (v1 ≠ v2 → valueAt h2.1 h1.2 ≠ valueAt h2.1 h2.2) := by
  subst hc
  subst hh1
  subst hc2
  subst hh2
  have wf1 : WF (run ops) := WF_run ops
  have wfh : WF { (make (run ops) v1).1 with
      handles := (make (run ops) v1).1.handles ++ [(make (run ops) v1).2] } :=
    WF_handles _ _ (WF_make (run ops) v1 wf1)
  have wf2 := WF_foldl _ mid wfh
  have hlook1 : mapGet { (make (run ops) v1).1 with
      handles := (make (run ops) v1).1.handles ++ [(make (run ops) v1).2] } v1 =
      some (make (run ops) v1).2 :=
    make_self_lookup (run ops) v1 wf1
  have hlook2 := foldl_mapGet_mono _ mid v1 _ wfh hlook1
  have hval0 : valueAt { (make (run ops) v1).1 with
      handles := (make (run ops) v1).1.handles ++ [(make (run ops) v1).2] }
      (make (run ops) v1).2 = some v1 :=
    make_snd_value (run ops) v1 wf1
  have hval1 := foldl_valueAt_mono _ mid _ v1 wfh hval0
  have main := canonical_pair _ v1 v2 _ wf2 hlook2 hval1
  refine ⟨main.1, main.2.1, main.2.2, ?_⟩
  intro hne hEq
  rw [main.2.1, main.2.2] at hEq
  exact hne (Option.some.inj hEq)

theorem claim1_intern_canonical_w :
    (make (List.foldl step
        { (make (run ([] : List (Op (Nat × Nat)))) ((0 : Nat), (1 : Nat))).1 with
          handles := (make (run ([] : List (Op (Nat × Nat)))) ((0 : Nat), (1 : Nat))).1.handles
            ++ [(make (run ([] : List (Op (Nat × Nat)))) ((0 : Nat), (1 : Nat))).2] }
        ([] : List (Op (Nat × Nat)))) ((0 : Nat), (1 : Nat))).2 =
      (make (run ([] : List (Op (Nat × Nat)))) ((0 : Nat), (1 : Nat))).2 :=
  (claim1_intern_canonical [] [] (0, 1) (0, 1) _ _ _ _ rfl rfl rfl rfl).1.mpr rfl

/-- C2: `inc_refs` does increase the live count by exactly one, but `dec_refs`
as written (src/lib.rs 81, `refs += 1`) also increases it by one instead of
decreasing it: from a count of 1 it produces 2, not 0. -/
theorem claim2_dec_refs_adds :
    refsAt (run ([Op.intern ((0 : Nat), (1 : Nat))] : List (Op (Nat × Nat)))) 0 = some 1 ∧
    refsAt (inc_refs (run ([Op.intern ((0 : Nat), (1 : Nat))] : List (Op (Nat × Nat)))) 0) 0
      = some 2 ∧
    refsAt (dec_refs (run ([Op.intern ((0 : Nat), (1 : Nat))] : List (Op (Nat × Nat)))) 0) 0
      = some 2 := by
  decide

/-- C3: after the only handle to `Pair(0,1)` is released, the map still holds
the entry, the box's count has grown to 2, and a subsequent intern of the same
value returns the very same box instead of allocating a fresh one — the
reclamation promised by the spec never happens, because `dec_refs` adds. -/
theorem claim3_reclamation_fails :
    (run ([Op.intern ((0 : Nat), (1 : Nat)), Op.dropH 0] : List (Op (Nat × Nat)))).handles
      = [] ∧
    (run ([Op.intern ((0 : Nat), (1 : Nat)), Op.dropH 0] : List (Op (Nat × Nat)))).map
      = [(0, 0)] ∧
    refsAt (run ([Op.intern ((0 : Nat), (1 : Nat)), Op.dropH 0] : List (Op (Nat × Nat)))) 0
      = some 2 ∧
    (make (run ([Op.intern ((0 : Nat), (1 : Nat)), Op.dropH 0] : List (Op (Nat × Nat))))
      (0, 1)).2 = 0 := by
  decide

/-- C4: releasing a handle whose box already has count 0 does not fail: the
drop glue runs `dec_refs` (which adds one, yielding count 1), the
count-is-zero test fails, and execution continues silently — no panic, and a
silently wrong count, contrary to the claimed fatal invariant failure. -/
theorem claim4_double_release_silent :
    (dropHandle doubleFreeConf 0).panicked = false ∧
    refsAt (dropHandle doubleFreeConf 0) 0 = some 1 ∧
    (dropHandle doubleFreeConf 0).map = [(0, 0)] := by
  decide

/-- C5: count conservation fails: one intern plus one clone create two
handles; releasing one of them leaves the box's count at 3, not at the
2 - 1 = 1 the claim requires, because the release adds instead of
subtracting. -/
theorem claim5_count_conservation_fails :
    refsAt (run ([Op.intern ((0 : Nat), (1 : Nat)), Op.cloneH 0, Op.dropH 1]
      : List (Op (Nat × Nat)))) 0 = some 3 ∧
    (run ([Op.intern ((0 : Nat), (1 : Nat)), Op.cloneH 0, Op.dropH 1]
      : List (Op (Nat × Nat)))).handles = [0] := by
  decide

/-- C6: dropping the owner's table reference in any reachable state decrements
the conser count by exactly one; whenever that count reaches zero the map is
empty, the conser box is freed, and no assertion fires; and the drop glue's
`assert!` makes a nonempty map at count zero a fatal panic, not a silent
condition. -/
theorem claim6_table_drop (ops : List (Op V)) (h : (run ops).ownerLive = true) :
    (step (run ops) Op.dropTable).conserRefs + 1 = (run ops).conserRefs ∧
    ((step (run ops) Op.dropTable).conserRefs = 0 →
      (run ops).map = [] ∧ (step (run ops) Op.dropTable).conserAlive = false ∧
      (step (run ops) Op.dropTable).panicked = false) ∧
    (∀ d : Conf V, d.conserRefs = 1 → d.map ≠ [] → (conserDrop d).panicked = true) := by
  have wf := WF_run ops
  have hrc := wf.refsCount
  rw [h] at hrc
  simp at hrc
  rw [step_dropTable (run ops) wf.noPanic h]
  have hfld : (conserDrop { run ops with ownerLive := false }).conserRefs =
      (run ops).conserRefs - 1 := conserDrop_conserRefs _
  refine ⟨?_, ?_, ?_⟩
  · rw [hfld]
    omega
  · intro h0
    rw [hfld] at h0
    have hlen : (run ops).heap.length = 0 := by omega
    have hmap : (run ops).map = [] :=
      map_nil_of_heap_nil (run ops) wf (List.length_eq_zero.mp hlen)
    have hres := conserDrop_last ({ run ops with ownerLive := false } : Conf V)
      (by simpa using h0) (by simpa using hmap)
    rw [hres]
    exact ⟨hmap, rfl, wf.noPanic⟩
  · intro d h1 hm
    rw [conserDrop_violation d (by omega) hm]

theorem claim6_table_drop_w :
    (step (run ([] : List (Op (Nat × Nat)))) Op.dropTable).conserRefs + 1 =
      (run ([] : List (Op (Nat × Nat)))).conserRefs ∧
    (conserDrop nonemptyMapConf).panicked = true :=
  ⟨(claim6_table_drop [] rfl).1,
   (claim6_table_drop ([] : List (Op (Nat × Nat))) rfl).2.2 nonemptyMapConf rfl (by decide)⟩

/-- C7: after the owner drops the table while a handle is outstanding, the
handle's value stays readable and the conser box stays allocated; but once
that last handle is released the box's count is 2 (not 0), the entry is still
in the map, and the conser box is never freed — releases do not behave as the
claim requires, because `dec_refs` adds. -/
theorem claim7_deferred_teardown_fails :
    valueAt (run ([Op.intern ((0 : Nat), (1 : Nat)), Op.dropTable]
      : List (Op (Nat × Nat)))) 0 = some (0, 1) ∧
    (run ([Op.intern ((0 : Nat), (1 : Nat)), Op.dropTable]
      : List (Op (Nat × Nat)))).conserAlive = true ∧
    (run ([Op.intern ((0 : Nat), (1 : Nat)), Op.dropTable, Op.dropH 0]
      : List (Op (Nat × Nat)))).handles = [] ∧
    refsAt (run ([Op.intern ((0 : Nat), (1 : Nat)), Op.dropTable, Op.dropH 0]
      : List (Op (Nat × Nat)))) 0 = some 2 ∧
    (run ([Op.intern ((0 : Nat), (1 : Nat)), Op.dropTable, Op.dropH 0]
      : List (Op (Nat × Nat)))).map = [(0, 0)] ∧
    (run ([Op.intern ((0 : Nat), (1 : Nat)), Op.dropTable, Op.dropH 0]
      : List (Op (Nat × Nat)))).conserAlive = true := by
  decide

/-- C8: when `make` finds an existing entry for a structurally equal value,
the map is left unchanged, the trial box is freed at once (its fresh pointer
is dead and was never registered), and the returned handle is the
pre-existing box's pointer with its count incremented by exactly one. -/
theorem claim8_found_frame (ops : List (Op V)) (v : V) (q : Nat)
    (h : mapGet (run ops) v = some q) :
    (make (run ops) v).2 = q ∧
    (make (run ops) v).1.map = (run ops).map ∧
    heapGet (make (run ops) v).1.heap (run ops).next = none ∧
    refsAt (make (run ops) v).1 q = Option.map (fun n => n + 1) (refsAt (run ops) q) ∧
    (heapGet (run ops).heap q).isSome = true := by
  have wf := WF_run ops
  have hsome : (heapGet (run ops).heap q).isSome = true :=
    isSome_of_valueAt (run ops) q v (mapGet_value (run ops) v q wf h)
  obtain ⟨a, ha⟩ := Option.isSome_iff_exists.mp hsome
  rw [make_found_result (run ops) v q wf h]
  refine ⟨rfl, ?_, ?_, ?_, hsome⟩
  · show (inc_refs { run ops with next := (run ops).next + 1 } q).map = (run ops).map
    rw [inc_refs_map]
  · have hiso : (heapGet (inc_refs { run ops with next := (run ops).next + 1 } q).heap
        (run ops).next).isSome =
        (heapGet (run ops).heap (run ops).next).isSome :=
      inc_refs_isSome _ q (run ops).next
    rw [heapGet_lt_none _ _ wf.fresh] at hiso
    cases hx : heapGet (inc_refs { run ops with next := (run ops).next + 1 } q).heap
        (run ops).next with
    | none => rfl
    | some b => rw [hx] at hiso; simp at hiso
  · have ha' : heapGet ({ run ops with next := (run ops).next + 1 } : Conf V).heap q =
        some a := ha
    rw [inc_refs_refsAt_eq _ q a ha']
    show some (a.refs + 1) = Option.map (fun n => n + 1) (refsAt (run ops) q)
    unfold refsAt
    rw [ha]
    rfl

theorem claim8_found_frame_w :
    (make (run ([Op.intern ((0 : Nat), (1 : Nat))] : List (Op (Nat × Nat)))) (0, 1)).2 = 0 :=
  (claim8_found_frame [Op.intern (0, 1)] (0, 1) 0 (by decide)).1

/-- C9: identity equality of handles is pointer equality — reflexive,
symmetric, transitive, and equivalent to equality of the pointers — and
identity-equal handles feed the same pointer to any hasher, so their identity
hashes agree. -/
theorem claim9_identity_eq_hash (p q r : Nat) (f : Nat → Nat) :
    idEq p p = true ∧
    idEq p q = idEq q p ∧
    (idEq p q = true → idEq q r = true → idEq p r = true) ∧
    (idEq p q = true → idHash f p = idHash f q) ∧
    (idEq p q = true ↔ p = q) := by
  unfold idEq idHash
  refine ⟨?_, ?_, ?_, ?_, ?_⟩
  · simp
  · by_cases hpq : p = q
    · subst hpq
      rfl
    · have h1 : (p == q) = false := by simpa using hpq
      have h2 : (q == p) = false := by simpa using fun hEq => hpq hEq.symm
      rw [h1, h2]
  · intro h1 h2
    have e1 : p = q := by simpa using h1
    have e2 : q = r := by simpa using h2
    simp [e1.trans e2]
  · intro h1
    have e1 : p = q := by simpa using h1
    rw [e1]
  · simp

theorem claim9_identity_eq_hash_w : idHash Nat.succ 5 = idHash Nat.succ 5 :=
  (claim9_identity_eq_hash 5 5 5 Nat.succ).2.2.2.1 (by decide)

/-- C10: in any reachable state every map entry has key = value (the insert
registers the same box as key and value); looking up the stored value of any
entry's box returns exactly that box, the one canonical cell for the value;
and `remove` preserves the key-equals-value property on any configuration. -/
theorem claim10_key_eq_value (ops : List (Op V)) :
    (∀ e ∈ (run ops).map, e.1 = e.2) ∧
    (∀ e ∈ (run ops).map, ∀ v : V, valueAt (run ops) e.1 = some v →
      mapGet (run ops) v = some e.1) ∧
    (∀ (c : Conf V) (p : Nat), (∀ e ∈ c.map, e.1 = e.2) →
      ∀ e ∈ (remove c p).map, e.1 = e.2) := by
  have wf := WF_run ops
  refine ⟨wf.keyVal, ?_, ?_⟩
  · intro e he v hv
    have hfind := mapFind_mem (run ops).heap (run ops).map v e wf.distinctVals he hv
    show mapFind (run ops).heap (run ops).map v = some e.1
    rw [wf.keyVal e he]
    exact hfind
  · intro c p hkv e
    cases hg : heapGet c.heap p with
    | none =>
      intro he
      simp only [remove, hg] at he
      exact hkv e he
    | some a =>
      intro he
      simp only [remove, hg] at he
      exact hkv e (mapErase_subset c.heap c.map a.value e he)

theorem claim10_key_eq_value_w : ((0 : Nat), (0 : Nat)).1 = ((0 : Nat), (0 : Nat)).2 :=
  (claim10_key_eq_value ([Op.intern ((0 : Nat), (1 : Nat))] : List (Op (Nat × Nat)))).1
    (0, 0) (by decide)

end HashCons
